import Mathlib

/-!
# Mandelbrot terminal viewer: numerical core of `main.c`

Shallow embedding of the functions `mandelbrot`, `mb_render`, `mb_zoom_at`,
`mb_zoom_center` and of the key switch of `main`.

Modelling conventions:

* a C `double` is an exact rational number (`ℚ`): unless said otherwise a
  result below is a statement about the program in exact arithmetic, without
  float64 rounding, overflow or NaN;
* the escape loop of `mandelbrot` has a second embedding, `mandelbrot64`, in
  which every arithmetic operation is rounded to IEEE 754 binary64 (round to
  nearest, ties to even, gradual underflow, overflow): there a `double` is an
  `Option ℚ`, `some q` being the finite value `q` and `none` an infinity or a
  NaN; signed zeros are not distinguished, and each C operation is taken to be
  rounded once to binary64 (no fused multiply-add, no extended precision);
* a C `int` is an `Int`; integer division is the truncating `Int.tdiv` of C,
  and an `int` used in a `double` expression is cast to `ℚ`;
* `struct Pos *pos` is passed as a value and the updated value is returned;
* the ncurses calls of one cell (`attron`, `mvaddch`, `attroff`) are recorded
  as one `Emit` event appended to an output list.
-/

namespace Mandelbrot

/-! ## Constants and data -/

/-- The macro `MAX_ITER` (line 6). -/
def MAX_ITER : Int := 1000

/-- The glyph table `shades` (line 8). -/
def shades : List Char :=
  [' ', '.', ':', '-', '=', '+', '*', '!', '/', '?', '&', '#', '%', '@']

/-- Number of glyphs in the `shades` table. -/
def PALETTE_SIZE : Int := shades.length

/-- The multiplier of the color formula `(iter * 6) / MAX_ITER + 1` (line 86). -/
def COLOR_COUNT : Int := 6

/-- The viewport `struct Pos` (lines 10-14). -/
structure Pos where
  center_x : ℚ
  center_y : ℚ
  scale : ℚ
  deriving DecidableEq, Repr

/-! ## `mandelbrot` (lines 58-71) -/

/-- Local variables `x`, `y`, `iter` of `mandelbrot`. -/
structure MState where
  x : ℚ
  y : ℚ
  iter : Int
  deriving DecidableEq, Repr

/-- The loop guard `x*x + y*y <= 4.0 && iter < MAX_ITER` (line 62). -/
def loopCond (s : MState) : Prop :=
  s.x * s.x + s.y * s.y ≤ 4 ∧ s.iter < MAX_ITER

instance (s : MState) : Decidable (loopCond s) := by
  unfold loopCond; infer_instance

/-- The loop body (lines 63-67). -/
def loopBody (cx cy : ℚ) (s : MState) : MState :=
  let x_t := s.x * s.x - s.y * s.y + cx
  { x := x_t, y := 2 * s.x * s.y + cy, iter := s.iter + 1 }

/-- The `while` loop of `mandelbrot`, returning the final `iter`. -/
def mandelbrotLoop (cx cy : ℚ) (s : MState) : Int :=
  if loopCond s then mandelbrotLoop cx cy (loopBody cx cy s) else s.iter
termination_by (MAX_ITER - s.iter).toNat
decreasing_by
  rename_i h
  have h2 : s.iter < MAX_ITER := h.2
  simp only [loopBody]
  omega

/-- The function `int mandelbrot(double cx, double cy)`. -/
def mandelbrot (cx cy : ℚ) : Int :=
  mandelbrotLoop cx cy { x := 0, y := 0, iter := 0 }

/-! ## `mandelbrot` in float64 arithmetic (lines 58-71) -/

/-- Round to the nearest integer, ties to the even one. -/
def roundHalfEven (m : ℚ) : Int :=
  let f := ⌊m⌋
  if m - f < 1 / 2 then f
  else if 1 / 2 < m - f then f + 1
  else if f % 2 = 0 then f else f + 1

/-- The binary64 exponent of `q`: `e` with `2^e <= |q| < 2^(e+1)`, and `-1022`
for the subnormal range. -/
def binade (q : ℚ) : Int := max (Int.log 2 |q|) (-1022)

/-- IEEE 754 binary64 rounding of an exact result: to the nearest multiple of
`2^(e-52)` (53 significant bits), ties to even; `none` (an infinity) when the
rounded magnitude reaches `2^1024`. -/
def rnd64 (q : ℚ) : Option ℚ :=
  let u : ℚ := 2 ^ (binade q - 52)
  let r : ℚ := roundHalfEven (q / u) * u
  if |r| < 2 ^ 1024 then some r else none

/-- The `double` product `a * b` under the rounding `rnd`; a non-finite operand
gives a non-finite result. -/
def fmul (rnd : ℚ → Option ℚ) (a b : Option ℚ) : Option ℚ :=
  match a, b with
  | some x, some y => rnd (x * y)
  | _, _ => none

/-- The `double` sum `a + b` under the rounding `rnd`. -/
def fadd (rnd : ℚ → Option ℚ) (a b : Option ℚ) : Option ℚ :=
  match a, b with
  | some x, some y => rnd (x + y)
  | _, _ => none

/-- The `double` difference `a - b` under the rounding `rnd`. -/
def fsub (rnd : ℚ → Option ℚ) (a b : Option ℚ) : Option ℚ :=
  match a, b with
  | some x, some y => rnd (x - y)
  | _, _ => none

/-- The comparison `v <= 4.0` for `v = x*x + y*y`: false when `v` is not
finite (a sum of squares is `+inf` or a NaN then, never `-inf`). -/
def fle4 (v : Option ℚ) : Bool :=
  match v with
  | some q => decide (q ≤ 4)
  | none => false

/-- Local variables `x`, `y`, `iter` of `mandelbrot`, as `double`s. -/
structure FState where
  x : Option ℚ
  y : Option ℚ
  iter : Int
  deriving DecidableEq, Repr

/-- The loop guard `x*x + y*y <= 4.0 && iter < MAX_ITER` (line 62), each
operation rounded. -/
def flCond (rnd : ℚ → Option ℚ) (s : FState) : Prop :=
  fle4 (fadd rnd (fmul rnd s.x s.x) (fmul rnd s.y s.y)) = true ∧ s.iter < MAX_ITER

instance (rnd : ℚ → Option ℚ) (s : FState) : Decidable (flCond rnd s) := by
  unfold flCond; infer_instance

/-- The loop body (lines 63-67), each operation rounded: `x*x - y*y + cx` is
`(x*x - y*y) + cx` and `2*x*y + cy` is `((2*x)*y) + cy`. -/
def flBody (rnd : ℚ → Option ℚ) (cx cy : Option ℚ) (s : FState) : FState :=
  let x_t := fadd rnd (fsub rnd (fmul rnd s.x s.x) (fmul rnd s.y s.y)) cx
  { x := x_t, y := fadd rnd (fmul rnd (fmul rnd (some 2) s.x) s.y) cy, iter := s.iter + 1 }

/-- The `while` loop of `mandelbrot` under the rounding `rnd`. -/
def mandelbrotLoopFl (rnd : ℚ → Option ℚ) (cx cy : Option ℚ) (s : FState) : Int :=
  if flCond rnd s then mandelbrotLoopFl rnd cx cy (flBody rnd cx cy s) else s.iter
termination_by (MAX_ITER - s.iter).toNat
decreasing_by
  rename_i h
  have h2 : s.iter < MAX_ITER := h.2
  simp only [flBody]
  omega

/-- The function `mandelbrot` under the rounding `rnd`. -/
def mandelbrotFl (rnd : ℚ → Option ℚ) (cx cy : Option ℚ) : Int :=
  mandelbrotLoopFl rnd cx cy { x := some 0, y := some 0, iter := 0 }

/-- The function `int mandelbrot(double cx, double cy)` in float64 arithmetic. -/
def mandelbrot64 (cx cy : Option ℚ) : Int :=
  mandelbrotFl rnd64 cx cy

/-! ## `mb_render` (lines 73-93) -/

/-- The expression assigned to `cx` (lines 77-78). -/
def render_cx (cols : Int) (pos : Pos) (col : Int) : ℚ :=
  pos.center_x + ((col : ℚ) - (cols : ℚ) / 2) * pos.scale / (cols : ℚ)

/-- The expression assigned to `cy` (lines 80-81). -/
def render_cy (rows cols : Int) (pos : Pos) (row : Int) : ℚ :=
  pos.center_y + ((row : ℚ) - (rows : ℚ) / 2) * pos.scale / (cols : ℚ)

/-- The expression assigned to `shade` (line 85). -/
def shadeIndex (iter : Int) : Int := (iter * 13).tdiv MAX_ITER

/-- The expression assigned to `color` (line 86). -/
def colorIndex (iter : Int) : Int := (iter * 6).tdiv MAX_ITER + 1

/-- The array read `shades[shade]` (line 89); `none` when the index is not
that of a glyph. -/
def shadeGlyph (shade : Int) : Option Char :=
  if 0 ≤ shade then shades.get? shade.toNat else none

/-- One display emission: `mvaddch(row, col, shades[shade])` under
`COLOR_PAIR(color)`. -/
structure Emit where
  row : Int
  col : Int
  shade : Int
  glyph : Option Char
  color : Int
  deriving DecidableEq, Repr

/-- The body of the inner loop for one cell (lines 77-90). -/
def renderCell (rows cols : Int) (pos : Pos) (row col : Int) : Emit :=
  let cx := render_cx cols pos col
  let cy := render_cy rows cols pos row
  let iter := mandelbrot cx cy
  let shade := shadeIndex iter
  let color := colorIndex iter
  { row := row, col := col, shade := shade, glyph := shadeGlyph shade, color := color }

/-- The inner loop `for (int col = ...; col < cols; ++col)`, from `col` on. -/
def colLoop (rows cols : Int) (pos : Pos) (row col : Int) (out : List Emit) : List Emit :=
  if col < cols then
    colLoop rows cols pos row (col + 1) (out ++ [renderCell rows cols pos row col])
  else out
termination_by (cols - col).toNat
decreasing_by omega

/-- The outer loop `for (int row = ...; row < rows; ++row)`, from `row` on. -/
def rowLoop (rows cols : Int) (pos : Pos) (row : Int) (out : List Emit) : List Emit :=
  if row < rows then
    rowLoop rows cols pos (row + 1) (colLoop rows cols pos row 0 out)
  else out
termination_by (rows - row).toNat
decreasing_by omega

/-- The function `mb_render`: the emissions in order, and the viewport it was
handed (it only reads through `pos`). -/
def mb_render (rows cols : Int) (pos : Pos) : List Emit × Pos :=
  (rowLoop rows cols pos 0 [], pos)

/-- Row-major reference list: the emissions of the cells numbered `0 .. n-1`,
cell `k` being row `k / cols`, column `k mod cols`. -/
def rowMajorCells (rows cols : Int) (pos : Pos) (n : Nat) : List Emit :=
  (List.range n).map
    (fun (k : Nat) => renderCell rows cols pos ((k : Int) / cols) ((k : Int) % cols))

/-! ## `mb_zoom_at` and `mb_zoom_center` (lines 95-114) -/

/-- The function `mb_zoom_at`. -/
def mb_zoom_at (pos : Pos) (factor : ℚ) (rows cols sx sy : Int) : Pos :=
  let old_scale := pos.scale
  let scale := pos.scale * factor
  let tx := pos.center_x + ((sx : ℚ) - (cols : ℚ) / 2) * old_scale / (cols : ℚ)
  let ty := pos.center_y + ((sy : ℚ) - (rows : ℚ) / 2) * old_scale / (cols : ℚ)
  let center_x := tx + (pos.center_x - tx) * (scale / old_scale)
  let center_y := ty + (pos.center_y - ty) * (scale / old_scale)
  { center_x := center_x, center_y := center_y, scale := scale }

/-- The function `mb_zoom_center`. -/
def mb_zoom_center (pos : Pos) (fac : ℚ) (rows cols : Int) : Pos :=
  mb_zoom_at pos fac rows cols (cols.tdiv 2) (rows.tdiv 2)

/-! ## The key switch of `main` (lines 117-184) -/

/-- The keys the loop of `main` distinguishes; `q` ends the loop and is not a
command. -/
inductive Key where
  | up | down | left | right | z | x | other
  deriving DecidableEq, Repr

/-- The initial viewport of `main` (lines 120-124). -/
def initialPos : Pos := { center_x := -0.5, center_y := 0.0, scale := 3.0 }

/-- One pass through the `switch (ch)` of `main` (lines 153-184), on a
terminal of `row` rows and `col` columns. -/
def keyStep (row col : Int) (pos : Pos) (ch : Key) : Pos :=
  let step := pos.scale / (col : ℚ)
  let pan := step * 5
  match ch with
  | Key.up => { pos with center_y := pos.center_y - pan }
  | Key.down => { pos with center_y := pos.center_y + pan }
  | Key.left => { pos with center_x := pos.center_x - pan }
  | Key.right => { pos with center_x := pos.center_x + pan }
  | Key.z => mb_zoom_center pos 0.1 row col
  | Key.x => mb_zoom_center pos (-1.0 / 0.1) row col
  | Key.other => pos

/-- The viewport after the keys `chs`, in order. -/
def runKeys (row col : Int) (pos : Pos) (chs : List Key) : Pos :=
  chs.foldl (keyStep row col) pos

/-! ## Auxiliary lemmas: the escape loop -/

theorem mandelbrotLoop_unfold (cx cy : ℚ) (s : MState) :
    mandelbrotLoop cx cy s =
      if loopCond s then mandelbrotLoop cx cy (loopBody cx cy s) else s.iter := by
  rw [mandelbrotLoop]

theorem loopBody_iter (cx cy : ℚ) (s : MState) :
    (loopBody cx cy s).iter = s.iter + 1 := rfl

theorem iterate_loopBody_iter (cx cy : ℚ) (n : Nat) (s : MState) :
    ((loopBody cx cy)^[n] s).iter = s.iter + n := by
  induction n generalizing s with
  | zero => simp
  | succ n ih =>
    rw [Function.iterate_succ_apply, ih, loopBody_iter]
    push_cast
    ring

/-- The loop started in state `s` runs the body some `n` times, with the guard
true before each of them and false after the last, and returns `s.iter + n`. -/
theorem mandelbrotLoop_trace (cx cy : ℚ) (s : MState) :
    ∃ n : Nat,
      ¬ loopCond ((loopBody cx cy)^[n] s) ∧
      (∀ m : Nat, m < n → loopCond ((loopBody cx cy)^[m] s)) ∧
      mandelbrotLoop cx cy s = s.iter + n := by
  induction s using mandelbrotLoop.induct cx cy with
  | case1 s h ih =>
    obtain ⟨n, hstop, hrun, hret⟩ := ih
    refine ⟨n + 1, ?_, ?_, ?_⟩
    · simpa [Function.iterate_succ_apply] using hstop
    · intro m hm
      cases m with
      | zero => simpa using h
      | succ m =>
        rw [Function.iterate_succ_apply]
        exact hrun m (by omega)
    · rw [mandelbrotLoop_unfold, if_pos h, hret, loopBody_iter]
      push_cast
      ring
  | case2 s h =>
    refine ⟨0, by simpa using h, ?_, ?_⟩
    · intro m hm
      omega
    · rw [mandelbrotLoop_unfold, if_neg h]
      simp

/-- While an invariant that implies the escape test `x*x + y*y <= 4.0` is kept
by the loop body, the loop runs until `iter` reaches `MAX_ITER`. -/
theorem mandelbrotLoop_of_invariant (cx cy : ℚ) (I : ℚ → ℚ → Prop)
    (hI : ∀ x y, I x y → x * x + y * y ≤ 4)
    (hstep : ∀ x y, I x y → I (x * x - y * y + cx) (2 * x * y + cy))
    (s : MState) (hs : I s.x s.y) (hle : s.iter ≤ MAX_ITER) :
    mandelbrotLoop cx cy s = MAX_ITER := by
  induction s using mandelbrotLoop.induct cx cy with
  | case1 s h ih =>
    rw [mandelbrotLoop_unfold, if_pos h]
    apply ih
    · exact hstep _ _ hs
    · have := h.2
      rw [loopBody_iter]
      omega
  | case2 s h =>
    rw [mandelbrotLoop_unfold, if_neg h]
    have hlt : ¬ s.iter < MAX_ITER := fun hlt => h ⟨hI _ _ hs, hlt⟩
    omega

/-! ## Auxiliary lemmas: bands -/

theorem shadeIndex_eq_ediv (iter : Int) (h : 0 ≤ iter) :
    shadeIndex iter = iter * 13 / 1000 := by
  unfold shadeIndex MAX_ITER
  rw [Int.tdiv_eq_ediv (by omega) (by omega)]

theorem colorIndex_eq_ediv (iter : Int) (h : 0 ≤ iter) :
    colorIndex iter = iter * 6 / 1000 + 1 := by
  unfold colorIndex MAX_ITER
  rw [Int.tdiv_eq_ediv (by omega) (by omega)]

theorem shades_length : shades.length = 14 := rfl

/-- In exact arithmetic, from a start outside the closed disc of radius 2 the
loop body runs exactly once. -/
theorem mandelbrot_eq_one_of_outside (cx cy : ℚ) (h : cx * cx + cy * cy > 4) :
    mandelbrot cx cy = 1 := by
  have h0 : loopCond { x := 0, y := 0, iter := 0 } := by
    simp [loopCond, MAX_ITER]
  have h1 : ¬ loopCond (loopBody cx cy { x := 0, y := 0, iter := 0 }) := by
    simp only [loopCond, loopBody]
    intro hc
    have := hc.1
    norm_num at this
    linarith
  unfold mandelbrot
  rw [mandelbrotLoop_unfold, if_pos h0, mandelbrotLoop_unfold, if_neg h1]
  simp [loopBody]

/-! ## The escape classifier -/

/-- The run of `mandelbrot`: the number of executions of the loop body, the
guard along the run, and the returned count. -/
theorem mandelbrot_trace (cx cy : ℚ) :
    ∃ n : Nat, (n : Int) ≤ MAX_ITER ∧ MAX_ITER = 1000 ∧
      (∀ m : Nat, m < n → loopCond ((loopBody cx cy)^[m] { x := 0, y := 0, iter := 0 })) ∧
      ¬ loopCond ((loopBody cx cy)^[n] { x := 0, y := 0, iter := 0 }) ∧
      mandelbrot cx cy = n ∧
      0 ≤ mandelbrot cx cy ∧ mandelbrot cx cy ≤ MAX_ITER := by
  obtain ⟨n, hstop, hrun, hret⟩ := mandelbrotLoop_trace cx cy { x := 0, y := 0, iter := 0 }
  have hret2 : mandelbrot cx cy = n := by
    unfold mandelbrot
    rw [hret]
    simp
  have hn : (n : Int) ≤ MAX_ITER := by
    cases n with
    | zero => simp [MAX_ITER]
    | succ k =>
      have hk := (hrun k (by omega)).2
      rw [iterate_loopBody_iter] at hk
      push_cast
      simp only [zero_add] at hk
      omega
  refine ⟨n, hn, rfl, hrun, hstop, hret2, ?_, ?_⟩
  · rw [hret2]
    omega
  · rw [hret2]
    exact hn

/-- C5: `mandelbrot` is total and bounded. For every input the loop body runs
some `n <= MAX_ITER = 1000` times (guard true before each run, false after the
last), the function returns that `n`, and so the result lies in
`[0, MAX_ITER]`. -/
theorem mandelbrot_total_bounded (cx cy : ℚ) :
    ∃ n : Nat, (n : Int) ≤ MAX_ITER ∧ MAX_ITER = 1000 ∧
      (∀ m : Nat, m < n → loopCond ((loopBody cx cy)^[m] { x := 0, y := 0, iter := 0 })) ∧
      ¬ loopCond ((loopBody cx cy)^[n] { x := 0, y := 0, iter := 0 }) ∧
      mandelbrot cx cy = n ∧
      0 ≤ mandelbrot cx cy ∧ mandelbrot cx cy ≤ MAX_ITER :=
  mandelbrot_trace cx cy

/-- C6: the known in-set points never escape. `mandelbrot` returns
`MAX_ITER = 1000` at `(0, 0)`, `(-1, 0)` and `(-0.5, 0)`, and `(-0.5, 0)` is
the point of row 12, column 40 of an 80-column, 24-row grid under the initial
viewport `(-0.5, 0.0, 3.0)`. -/
theorem mandelbrot_known_interior :
    MAX_ITER = 1000 ∧
    mandelbrot 0.0 0.0 = MAX_ITER ∧
    mandelbrot (-1.0) 0.0 = MAX_ITER ∧
    mandelbrot (-0.5) 0.0 = MAX_ITER ∧
    initialPos = { center_x := -0.5, center_y := 0.0, scale := 3.0 } ∧
    render_cx 80 initialPos 40 = -0.5 ∧
    render_cy 24 80 initialPos 12 = 0.0 ∧
    mandelbrot (render_cx 80 initialPos 40) (render_cy 24 80 initialPos 12) = MAX_ITER := by
  have hz : mandelbrot 0 0 = MAX_ITER := by
    unfold mandelbrot
    apply mandelbrotLoop_of_invariant 0 0 (fun x y => x = 0 ∧ y = 0)
    · rintro x y ⟨rfl, rfl⟩
      norm_num
    · rintro x y ⟨rfl, rfl⟩
      norm_num
    · exact ⟨rfl, rfl⟩
    · simp [MAX_ITER]
  have hm : mandelbrot (-1) 0 = MAX_ITER := by
    unfold mandelbrot
    apply mandelbrotLoop_of_invariant (-1) 0 (fun x y => (x = 0 ∨ x = -1) ∧ y = 0)
    · rintro x y ⟨rfl | rfl, rfl⟩ <;> norm_num
    · rintro x y ⟨rfl | rfl, rfl⟩ <;> norm_num
    · exact ⟨Or.inl rfl, rfl⟩
    · simp [MAX_ITER]
  have hh : mandelbrot (-1 / 2) 0 = MAX_ITER := by
    unfold mandelbrot
    apply mandelbrotLoop_of_invariant (-1 / 2) 0 (fun x y => (-1 / 2 ≤ x ∧ x ≤ 0) ∧ y = 0)
    · rintro x y ⟨⟨h1, h2⟩, rfl⟩
      nlinarith
    · rintro x y ⟨⟨h1, h2⟩, rfl⟩
      refine ⟨⟨?_, ?_⟩, ?_⟩
      · nlinarith
      · nlinarith
      · norm_num
    · refine ⟨⟨?_, ?_⟩, rfl⟩ <;> norm_num
    · simp [MAX_ITER]
  have hcx : render_cx 80 initialPos 40 = -1 / 2 := by
    simp only [render_cx, initialPos]
    norm_num
  have hcy : render_cy 24 80 initialPos 12 = 0 := by
    simp only [render_cy, initialPos]
    norm_num
  have e1 : (0.0 : ℚ) = 0 := by norm_num
  have e2 : (-1.0 : ℚ) = -1 := by norm_num
  have e3 : (-0.5 : ℚ) = -1 / 2 := by norm_num
  refine ⟨rfl, ?_, ?_, ?_, rfl, ?_, ?_, ?_⟩
  · rw [e1]; exact hz
  · rw [e1, e2]; exact hm
  · rw [e1, e3]; exact hh
  · rw [e3]; exact hcx
  · rw [e1]; exact hcy
  · rw [hcx, hcy]; exact hh

/-! ## The escape classifier in float64 arithmetic -/

theorem mandelbrotLoopFl_unfold (rnd : ℚ → Option ℚ) (cx cy : Option ℚ) (s : FState) :
    mandelbrotLoopFl rnd cx cy s =
      if flCond rnd s then mandelbrotLoopFl rnd cx cy (flBody rnd cx cy s) else s.iter := by
  rw [mandelbrotLoopFl]

/-- Without rounding the float loop is the exact loop. -/
theorem mandelbrotLoopFl_exact (cx cy : ℚ) (s : MState) :
    mandelbrotLoopFl some (some cx) (some cy) { x := some s.x, y := some s.y, iter := s.iter } =
      mandelbrotLoop cx cy s := by
  induction s using mandelbrotLoop.induct cx cy with
  | case1 s h ih =>
    have hc : flCond some { x := some s.x, y := some s.y, iter := s.iter } := by
      simpa [flCond, fle4, fadd, fmul, loopCond] using h
    rw [mandelbrotLoopFl_unfold, if_pos hc, mandelbrotLoop_unfold, if_pos h, ← ih]
    rfl
  | case2 s h =>
    have hc : ¬ flCond some { x := some s.x, y := some s.y, iter := s.iter } := by
      simpa [flCond, fle4, fadd, fmul, loopCond] using h
    rw [mandelbrotLoopFl_unfold, if_neg hc, mandelbrotLoop_unfold, if_neg h]

/-- Without rounding `mandelbrotFl` is the exact `mandelbrot`. -/
theorem mandelbrotFl_exact (cx cy : ℚ) :
    mandelbrotFl some (some cx) (some cy) = mandelbrot cx cy :=
  mandelbrotLoopFl_exact cx cy { x := 0, y := 0, iter := 0 }

theorem roundHalfEven_of_near (m : ℚ) (n : Int) (h1 : -(1 / 2) < m - n) (h2 : m - n < 1 / 2) :
    roundHalfEven m = n := by
  have hf1 : (⌊m⌋ : ℚ) ≤ m := Int.floor_le m
  have hf2 : m < (⌊m⌋ : ℚ) + 1 := Int.lt_floor_add_one m
  have tie : m - ⌊m⌋ = 1 / 2 → False := by
    intro e
    have a : (⌊m⌋ : ℚ) - n < 0 := by linarith
    have b : -1 < (⌊m⌋ : ℚ) - n := by linarith
    have a2 : ⌊m⌋ - n < 0 := by exact_mod_cast a
    have b2 : -1 < ⌊m⌋ - n := by exact_mod_cast b
    omega
  unfold roundHalfEven
  simp only
  split_ifs with c1 c2 c3
  · have a : (⌊m⌋ : ℚ) - n < 1 := by linarith
    have b : -1 < (⌊m⌋ : ℚ) - n := by linarith
    have a2 : ⌊m⌋ - n < 1 := by exact_mod_cast a
    have b2 : -1 < ⌊m⌋ - n := by exact_mod_cast b
    omega
  · have a : (⌊m⌋ : ℚ) + 1 - n < 1 := by linarith
    have b : -1 < (⌊m⌋ : ℚ) + 1 - n := by linarith
    have a2 : ⌊m⌋ + 1 - n < 1 := by exact_mod_cast a
    have b2 : -1 < ⌊m⌋ + 1 - n := by exact_mod_cast b
    omega
  · exact (tie (le_antisymm (not_lt.mp c2) (not_lt.mp c1))).elim
  · exact (tie (le_antisymm (not_lt.mp c2) (not_lt.mp c1))).elim

theorem binade_of_bounds (q : ℚ) (e : Int) (hq : 0 < q) (he : -1022 ≤ e)
    (hlo : (2 : ℚ) ^ e ≤ q ∨ e = -1022) (hhi : q < (2 : ℚ) ^ (e + 1)) : binade q = e := by
  unfold binade
  rw [abs_of_pos hq]
  have h1 : Int.log 2 q < e + 1 := by
    rw [← Int.lt_zpow_iff_log_lt (by norm_num) hq]
    exact_mod_cast hhi
  rcases hlo with h | h
  · have h2 : e ≤ Int.log 2 q := by
      rw [← Int.zpow_le_iff_le_log (by norm_num) hq]
      exact_mod_cast h
    have h3 : Int.log 2 q = e := by omega
    rw [h3]
    exact max_eq_left he
  · have h3 : Int.log 2 q ≤ -1022 := by omega
    rw [h]
    exact max_eq_right h3

/-- Evaluation of `rnd64` at a positive `q` of binade `e`: the result is the
multiple `n * 2^(e-52)` within half a unit of `q`. -/
theorem rnd64_eval (q r : ℚ) (e n : Int) (hq : 0 < q) (he : -1022 ≤ e)
    (hlo : (2 : ℚ) ^ e ≤ q ∨ e = -1022) (hhi : q < (2 : ℚ) ^ (e + 1))
    (h1 : -(1 / 2) < q / 2 ^ (e - 52) - n) (h2 : q / 2 ^ (e - 52) - n < 1 / 2)
    (hr : (n : ℚ) * 2 ^ (e - 52) = r) (hpos : 0 ≤ r) (hfin : r < 2 ^ 1024) :
    rnd64 q = some r := by
  unfold rnd64
  simp only
  rw [binade_of_bounds q e hq he hlo hhi, roundHalfEven_of_near _ n h1 h2, hr,
    abs_of_nonneg hpos, if_pos hfin]

theorem rnd64_zero : rnd64 0 = some 0 := by
  simp [rnd64, roundHalfEven]

/-- The first pass of the loop, for finite `double` arguments: the guard holds
at `x = y = 0` and the body leaves `x = cx`, `y = cy`, `iter = 1`. -/
theorem mandelbrotFl_first_pass (rnd : ℚ → Option ℚ) (a b : ℚ) (h0 : rnd 0 = some 0)
    (ha : rnd a = some a) (hb : rnd b = some b) :
    mandelbrotFl rnd (some a) (some b) =
      mandelbrotLoopFl rnd (some a) (some b) { x := some a, y := some b, iter := 1 } := by
  have hc : flCond rnd { x := some 0, y := some 0, iter := 0 } := by
    simp [flCond, fle4, fadd, fmul, h0, MAX_ITER]
  have hbody : flBody rnd (some a) (some b) { x := some 0, y := some 0, iter := 0 } =
      { x := some a, y := some b, iter := 1 } := by
    simp [flBody, fadd, fsub, fmul, h0, ha, hb]
  unfold mandelbrotFl
  rw [mandelbrotLoopFl_unfold, if_pos hc, hbody]

/-- When the rounded `cx*cx + cy*cy` is above 4 (or not finite), the loop stops
after its first pass. -/
theorem mandelbrotFl_eq_one (rnd : ℚ → Option ℚ) (a b : ℚ) (h0 : rnd 0 = some 0)
    (ha : rnd a = some a) (hb : rnd b = some b)
    (h : ∀ v, fadd rnd (fmul rnd (some a) (some a)) (fmul rnd (some b) (some b)) = some v →
      4 < v) :
    mandelbrotFl rnd (some a) (some b) = 1 := by
  have hc : ¬ flCond rnd { x := some a, y := some b, iter := 1 } := by
    intro hc
    have hg := hc.1
    simp only at hg
    cases hv : fadd rnd (fmul rnd (some a) (some a)) (fmul rnd (some b) (some b)) with
    | none =>
      rw [hv] at hg
      simp [fle4] at hg
    | some v =>
      rw [hv] at hg
      have h4 := h v hv
      simp only [fle4, decide_eq_true_eq] at hg
      linarith
  rw [mandelbrotFl_first_pass rnd a b h0 ha hb, mandelbrotLoopFl_unfold, if_neg hc]

theorem fmul_some (rnd : ℚ → Option ℚ) (x y : ℚ) :
    fmul rnd (some x) (some y) = rnd (x * y) := rfl

theorem fadd_some (rnd : ℚ → Option ℚ) (x y : ℚ) :
    fadd rnd (some x) (some y) = rnd (x + y) := rfl

theorem fsub_some (rnd : ℚ → Option ℚ) (x y : ℚ) :
    fsub rnd (some x) (some y) = rnd (x - y) := rfl

theorem fle4_some (q : ℚ) : fle4 (some q) = decide (q ≤ 4) := rfl

theorem flBody_some (rnd : ℚ → Option ℚ) (cx cy : Option ℚ) (x y : ℚ) (i : Int) :
    flBody rnd cx cy { x := some x, y := some y, iter := i } =
      { x := fadd rnd (fsub rnd (rnd (x * x)) (rnd (y * y))) cx
        y := fadd rnd (fmul rnd (rnd (2 * x)) (some y)) cy
        iter := i + 1 } := rfl

/-- C7 does not hold in float64 just outside the circle: `(2.0, 2^-30)` are
`double`s with `cx*cx + cy*cy = 4 + 2^-60 > 4`, but the rounded sum in the loop
guard is `4.0`, the body runs a second time, and `mandelbrot` returns 2. -/
theorem mandelbrot64_near_circle_returns_two :
    (2 : ℚ) * 2 + 1 / 2 ^ 30 * (1 / 2 ^ 30) > 4 ∧
    rnd64 2 = some 2 ∧ rnd64 (1 / 2 ^ 30) = some (1 / 2 ^ 30) ∧
    fadd rnd64 (fmul rnd64 (some 2) (some 2))
      (fmul rnd64 (some (1 / 2 ^ 30)) (some (1 / 2 ^ 30))) = some 4 ∧
    mandelbrot64 (some 2) (some (1 / 2 ^ 30)) = 2 ∧
    ¬ mandelbrot64 (some 2) (some (1 / 2 ^ 30)) ≤ 1 := by
  have e2 : rnd64 2 = some 2 :=
    rnd64_eval 2 2 1 (2 ^ 52) (by norm_num) (by norm_num) (Or.inl (by norm_num))
      (by norm_num) (by norm_num) (by norm_num) (by norm_num) (by norm_num) (by norm_num)
  have ey : rnd64 (1 / 2 ^ 30) = some (1 / 2 ^ 30) :=
    rnd64_eval _ _ (-30) (2 ^ 52) (by norm_num) (by norm_num) (Or.inl (by norm_num))
      (by norm_num) (by norm_num) (by norm_num) (by norm_num) (by norm_num) (by norm_num)
  have e22 : rnd64 (2 * 2) = some 4 :=
    rnd64_eval _ 4 2 (2 ^ 52) (by norm_num) (by norm_num) (Or.inl (by norm_num))
      (by norm_num) (by norm_num) (by norm_num) (by norm_num) (by norm_num) (by norm_num)
  have eyy : rnd64 (1 / 2 ^ 30 * (1 / 2 ^ 30)) = some (1 / 2 ^ 60) :=
    rnd64_eval _ _ (-60) (2 ^ 52) (by norm_num) (by norm_num) (Or.inl (by norm_num))
      (by norm_num) (by norm_num) (by norm_num) (by norm_num) (by norm_num) (by norm_num)
  have esum : rnd64 (4 + 1 / 2 ^ 60) = some 4 :=
    rnd64_eval _ 4 2 (2 ^ 52) (by norm_num) (by norm_num) (Or.inl (by norm_num))
      (by norm_num) (by norm_num) (by norm_num) (by norm_num) (by norm_num) (by norm_num)
  have esub : rnd64 (4 - 1 / 2 ^ 60) = some 4 :=
    rnd64_eval _ 4 1 (2 ^ 53) (by norm_num) (by norm_num) (Or.inl (by norm_num))
      (by norm_num) (by norm_num) (by norm_num) (by norm_num) (by norm_num) (by norm_num)
  have e6 : rnd64 (4 + 2) = some 6 :=
    rnd64_eval _ 6 2 (3 * 2 ^ 51) (by norm_num) (by norm_num) (Or.inl (by norm_num))
      (by norm_num) (by norm_num) (by norm_num) (by norm_num) (by norm_num) (by norm_num)
  have e4y : rnd64 (4 * (1 / 2 ^ 30)) = some (1 / 2 ^ 28) :=
    rnd64_eval _ _ (-28) (2 ^ 52) (by norm_num) (by norm_num) (Or.inl (by norm_num))
      (by norm_num) (by norm_num) (by norm_num) (by norm_num) (by norm_num) (by norm_num)
  have e5y : rnd64 (1 / 2 ^ 28 + 1 / 2 ^ 30) = some (5 / 2 ^ 30) :=
    rnd64_eval _ _ (-28) (5 * 2 ^ 50) (by norm_num) (by norm_num) (Or.inl (by norm_num))
      (by norm_num) (by norm_num) (by norm_num) (by norm_num) (by norm_num) (by norm_num)
  have e36 : rnd64 (6 * 6) = some 36 :=
    rnd64_eval _ 36 5 (9 * 2 ^ 49) (by norm_num) (by norm_num) (Or.inl (by norm_num))
      (by norm_num) (by norm_num) (by norm_num) (by norm_num) (by norm_num) (by norm_num)
  have e25 : rnd64 (5 / 2 ^ 30 * (5 / 2 ^ 30)) = some (25 / 2 ^ 60) :=
    rnd64_eval _ _ (-56) (25 * 2 ^ 48) (by norm_num) (by norm_num) (Or.inl (by norm_num))
      (by norm_num) (by norm_num) (by norm_num) (by norm_num) (by norm_num) (by norm_num)
  have e36s : rnd64 (36 + 25 / 2 ^ 60) = some 36 :=
    rnd64_eval _ 36 5 (9 * 2 ^ 49) (by norm_num) (by norm_num) (Or.inl (by norm_num))
      (by norm_num) (by norm_num) (by norm_num) (by norm_num) (by norm_num) (by norm_num)
  have hsum : fadd rnd64 (fmul rnd64 (some 2) (some 2))
      (fmul rnd64 (some (1 / 2 ^ 30)) (some (1 / 2 ^ 30))) = some 4 := by
    rw [fmul_some, fmul_some, e22, eyy, fadd_some, esum]
  have hc1 : flCond rnd64 { x := some 2, y := some (1 / 2 ^ 30), iter := 1 } := by
    refine ⟨?_, by decide⟩
    show fle4 (fadd rnd64 (fmul rnd64 (some 2) (some 2))
      (fmul rnd64 (some (1 / 2 ^ 30)) (some (1 / 2 ^ 30)))) = true
    rw [hsum, fle4_some]
    exact decide_eq_true (by norm_num)
  have hb1 : flBody rnd64 (some 2) (some (1 / 2 ^ 30))
      { x := some 2, y := some (1 / 2 ^ 30), iter := 1 } =
      { x := some 6, y := some (5 / 2 ^ 30), iter := 2 } := by
    rw [flBody_some, e22, eyy, fsub_some, esub, fadd_some, e6, fmul_some, e4y, fadd_some, e5y]
    have h : (1 : Int) + 1 = 2 := by norm_num
    rw [h]
  have hc2 : ¬ flCond rnd64 { x := some 6, y := some (5 / 2 ^ 30), iter := 2 } := by
    intro hc
    have hg : fle4 (fadd rnd64 (fmul rnd64 (some 6) (some 6))
        (fmul rnd64 (some (5 / 2 ^ 30)) (some (5 / 2 ^ 30)))) = true := hc.1
    rw [fmul_some, fmul_some, e36, e25, fadd_some, e36s, fle4_some] at hg
    have h36 : (36 : ℚ) ≤ 4 := of_decide_eq_true hg
    norm_num at h36
  have hret : mandelbrot64 (some 2) (some (1 / 2 ^ 30)) = 2 := by
    unfold mandelbrot64
    rw [mandelbrotFl_first_pass rnd64 2 (1 / 2 ^ 30) rnd64_zero e2 ey,
      mandelbrotLoopFl_unfold, if_pos hc1, hb1, mandelbrotLoopFl_unfold, if_neg hc2]
  refine ⟨by norm_num, e2, ey, hsum, hret, ?_⟩
  rw [hret]
  norm_num

/-- C7, with the escape test read as the program computes it: for finite
`double`s `cx`, `cy` whose float64 value of `cx*cx + cy*cy` (each product and
the sum rounded, as in the loop guard) is above 4 or overflows, `mandelbrot`
returns exactly 1, a count `<= 1`. -/
theorem mandelbrot64_outside_le_one (a b : ℚ)
    (ha : rnd64 a = some a) (hb : rnd64 b = some b)
    (h : ∀ v, fadd rnd64 (fmul rnd64 (some a) (some a)) (fmul rnd64 (some b) (some b)) = some v →
      4 < v) :
    mandelbrot64 (some a) (some b) = 1 ∧ mandelbrot64 (some a) (some b) ≤ 1 := by
  have h1 : mandelbrot64 (some a) (some b) = 1 :=
    mandelbrotFl_eq_one rnd64 a b rnd64_zero ha hb h
  rw [h1]
  exact ⟨rfl, le_refl 1⟩

/-- C7 at the concrete point `(5.0, 5.0)`, where the float64 sum is `50.0`. -/
theorem mandelbrot64_outside_le_one_witness :
    rnd64 5 = some 5 ∧
    fadd rnd64 (fmul rnd64 (some 5) (some 5)) (fmul rnd64 (some 5) (some 5)) = some 50 ∧
    mandelbrot64 (some 5) (some 5) = 1 ∧ mandelbrot64 (some 5) (some 5) ≤ 1 :=
  have e5 : rnd64 5 = some 5 :=
    rnd64_eval 5 5 2 (5 * 2 ^ 50) (by norm_num) (by norm_num) (Or.inl (by norm_num))
      (by norm_num) (by norm_num) (by norm_num) (by norm_num) (by norm_num) (by norm_num)
  have e25 : rnd64 (5 * 5) = some 25 :=
    rnd64_eval _ 25 4 (25 * 2 ^ 48) (by norm_num) (by norm_num) (Or.inl (by norm_num))
      (by norm_num) (by norm_num) (by norm_num) (by norm_num) (by norm_num) (by norm_num)
  have e50 : rnd64 (25 + 25) = some 50 :=
    rnd64_eval _ 50 5 (25 * 2 ^ 48) (by norm_num) (by norm_num) (Or.inl (by norm_num))
      (by norm_num) (by norm_num) (by norm_num) (by norm_num) (by norm_num) (by norm_num)
  have hsum : fadd rnd64 (fmul rnd64 (some 5) (some 5)) (fmul rnd64 (some 5) (some 5)) =
      some 50 := by
    rw [fmul_some, e25, fadd_some, e50]
  have hres := mandelbrot64_outside_le_one 5 5 e5 e5 (by
    intro v hv
    rw [hsum] at hv
    have hv2 : (50 : ℚ) = v := Option.some.inj hv
    rw [← hv2]
    norm_num)
  ⟨e5, hsum, hres.1, hres.2⟩

/-! ## Bands -/

/-- C9: band endpoints. With `PALETTE_SIZE = 14` (the glyphs of `shades`) and
`COLOR_COUNT = 6`, the shade and color computed in `mb_render` are `(0, 1)` for
`iter = 0` and `(PALETTE_SIZE - 1, COLOR_COUNT + 1) = (13, 7)` for
`iter = MAX_ITER = 1000`. -/
theorem band_endpoints :
    PALETTE_SIZE = 14 ∧ COLOR_COUNT = 6 ∧ MAX_ITER = 1000 ∧
    (shadeIndex 0, colorIndex 0) = (0, 1) ∧
    (shadeIndex MAX_ITER, colorIndex MAX_ITER) = (PALETTE_SIZE - 1, COLOR_COUNT + 1) ∧
    (PALETTE_SIZE - 1, COLOR_COUNT + 1) = (13, 7) := by
  refine ⟨rfl, rfl, rfl, ?_, ?_, ?_⟩ <;> decide

/-- C10: the shade index is a valid palette index. For `0 <= j <= iter <=
MAX_ITER` the shade index of `iter` lies in `[0, PALETTE_SIZE - 1] = [0, 13]`,
the read `shades[shade]` hits one of the 14 glyphs, and the shade index of `j`
is at most that of `iter`; the same bounds hold for the shade index of every
value `mandelbrot` returns. -/
theorem shade_index_valid (iter j : Int) (h0 : 0 ≤ j) (hj : j ≤ iter)
    (hi : iter ≤ MAX_ITER) (cx cy : ℚ) :
    (0 ≤ shadeIndex iter ∧ shadeIndex iter ≤ PALETTE_SIZE - 1) ∧
    PALETTE_SIZE - 1 = 13 ∧
    (shadeIndex iter).toNat < shades.length ∧
    (∃ c, shadeGlyph (shadeIndex iter) = some c ∧ c ∈ shades) ∧
    shadeIndex j ≤ shadeIndex iter ∧
    (0 ≤ shadeIndex (mandelbrot cx cy) ∧ shadeIndex (mandelbrot cx cy) ≤ PALETTE_SIZE - 1) ∧
    (∃ c, shadeGlyph (shadeIndex (mandelbrot cx cy)) = some c ∧ c ∈ shades) := by
  have hP : PALETTE_SIZE - 1 = 13 := by decide
  have key : ∀ i : Int, 0 ≤ i → i ≤ MAX_ITER →
      (0 ≤ shadeIndex i ∧ shadeIndex i ≤ 13) ∧ (shadeIndex i).toNat < shades.length ∧
      ∃ c, shadeGlyph (shadeIndex i) = some c ∧ c ∈ shades := by
    intro i hi0 hi1
    have hb : 0 ≤ shadeIndex i ∧ shadeIndex i ≤ 13 := by
      rw [shadeIndex_eq_ediv i hi0]
      unfold MAX_ITER at hi1
      omega
    have hlen : (shadeIndex i).toNat < shades.length := by
      rw [shades_length]
      omega
    refine ⟨hb, hlen, shades.get ⟨(shadeIndex i).toNat, hlen⟩, ?_, List.get_mem _ _ _⟩
    unfold shadeGlyph
    rw [if_pos hb.1, List.get?_eq_get hlen]
  obtain ⟨n, hn, -, -, -, hret, -, -⟩ := mandelbrot_trace cx cy
  have hm := key (mandelbrot cx cy) (by rw [hret]; omega) (by rw [hret]; exact hn)
  have hk := key iter (by omega) hi
  refine ⟨by rw [hP]; exact hk.1, hP, hk.2.1, hk.2.2, ?_, by rw [hP]; exact hm.1, hm.2.2⟩
  rw [shadeIndex_eq_ediv j h0, shadeIndex_eq_ediv iter (by omega)]
  omega

/-- C10 at `iter = MAX_ITER = 1000`, `j = 999` and the point `(0, 0)`. -/
theorem shade_index_valid_witness :
    (0 ≤ shadeIndex 1000 ∧ shadeIndex 1000 ≤ PALETTE_SIZE - 1) ∧
    PALETTE_SIZE - 1 = 13 ∧
    (shadeIndex 1000).toNat < shades.length ∧
    (∃ c, shadeGlyph (shadeIndex 1000) = some c ∧ c ∈ shades) ∧
    shadeIndex 999 ≤ shadeIndex 1000 ∧
    (0 ≤ shadeIndex (mandelbrot 0 0) ∧ shadeIndex (mandelbrot 0 0) ≤ PALETTE_SIZE - 1) ∧
    (∃ c, shadeGlyph (shadeIndex (mandelbrot 0 0)) = some c ∧ c ∈ shades) :=
  shade_index_valid 1000 999 (by decide) (by decide) (by decide) 0 0

/-! ## Zoom -/

theorem mb_zoom_at_scale (v : Pos) (f : ℚ) (rows cols sx sy : Int) :
    (mb_zoom_at v f rows cols sx sy).scale = v.scale * f := rfl

/-- The new center in closed form, for a non-zero old scale. -/
theorem mb_zoom_at_center (v : Pos) (f : ℚ) (rows cols sx sy : Int) (hs : v.scale ≠ 0) :
    (mb_zoom_at v f rows cols sx sy).center_x =
        render_cx cols v sx + (v.center_x - render_cx cols v sx) * f ∧
    (mb_zoom_at v f rows cols sx sy).center_y =
        render_cy rows cols v sy + (v.center_y - render_cy rows cols v sy) * f := by
  have hq : v.scale * f / v.scale = f := by field_simp
  simp only [mb_zoom_at, render_cx, render_cy, hq]
  exact ⟨trivial, trivial⟩

/-- The truncated half of a positive `int`, as a `double`. -/
theorem tdiv_two_cast (n : Int) (hn : 1 ≤ n) :
    ((n.tdiv 2 : Int) : ℚ) = (n : ℚ) / 2 - ((n % 2 : Int) : ℚ) / 2 := by
  rw [Int.tdiv_eq_ediv (by omega) (by omega)]
  have h : n = 2 * (n / 2) + n % 2 := by omega
  have hq : (n : ℚ) = 2 * ((n / 2 : Int) : ℚ) + ((n % 2 : Int) : ℚ) := by
    exact_mod_cast h
  linarith

/-- The anchor cell keeps its complex point across `mb_zoom_at`. -/
theorem mb_zoom_at_anchor_fixed (v : Pos) (f : ℚ) (rows cols sx sy : Int)
    (hs : 0 < v.scale) (hc : 1 ≤ cols) :
    render_cx cols (mb_zoom_at v f rows cols sx sy) sx = render_cx cols v sx ∧
    render_cy rows cols (mb_zoom_at v f rows cols sx sy) sy = render_cy rows cols v sy ∧
    (mb_zoom_at v f rows cols sx sy).scale = v.scale * f := by
  have hs0 : v.scale ≠ 0 := ne_of_gt hs
  have hc0 : (cols : ℚ) ≠ 0 := by
    have : (0 : ℚ) < (cols : ℚ) := by exact_mod_cast (by omega : 0 < cols)
    exact ne_of_gt this
  obtain ⟨hx, hy⟩ := mb_zoom_at_center v f rows cols sx sy hs0
  refine ⟨?_, ?_, rfl⟩
  · rw [render_cx, hx, mb_zoom_at_scale]
    simp only [render_cx]
    field_simp
    ring
  · rw [render_cy, hy, mb_zoom_at_scale]
    simp only [render_cy]
    field_simp
    ring

/-- C1: zoom anchor invariant. For a viewport with `scale > 0`, any factor and
any grid with `cols >= 1`, the complex point of the anchor cell `(sx, sy)` is
the same before and after `mb_zoom_at`, and the new scale is `scale * f`. -/
theorem zoom_anchor_invariant (v : Pos) (f : ℚ) (rows cols sx sy : Int)
    (hs : 0 < v.scale) (hc : 1 ≤ cols) :
    render_cx cols (mb_zoom_at v f rows cols sx sy) sx = render_cx cols v sx ∧
    render_cy rows cols (mb_zoom_at v f rows cols sx sy) sy = render_cy rows cols v sy ∧
    (mb_zoom_at v f rows cols sx sy).scale = v.scale * f :=
  mb_zoom_at_anchor_fixed v f rows cols sx sy hs hc

/-- C1 on the initial viewport, factor `0.1`, an 80 by 24 grid, anchor `(3, 7)`. -/
theorem zoom_anchor_invariant_witness :
    0 < initialPos.scale ∧ (1 : Int) ≤ 80 ∧
    render_cx 80 (mb_zoom_at initialPos 0.1 24 80 3 7) 3 = render_cx 80 initialPos 3 ∧
    render_cy 24 80 (mb_zoom_at initialPos 0.1 24 80 3 7) 7 = render_cy 24 80 initialPos 7 ∧
    (mb_zoom_at initialPos 0.1 24 80 3 7).scale = initialPos.scale * 0.1 :=
  ⟨by norm_num [initialPos], by decide,
    zoom_anchor_invariant initialPos 0.1 24 80 3 7 (by norm_num [initialPos]) (by decide)⟩

/-- C2: zoom round trip. For a viewport with `scale > 0`, a non-zero factor `f`
and a grid with `rows, cols >= 1`, `mb_zoom_center` with `f` followed by
`mb_zoom_center` with `1/f` on the same grid gives back the viewport. -/
theorem zoom_center_round_trip (v : Pos) (f : ℚ) (rows cols : Int)
    (hs : 0 < v.scale) (hf : f ≠ 0) (_hr : 1 ≤ rows) (hc : 1 ≤ cols) :
    mb_zoom_center (mb_zoom_center v f rows cols) (1 / f) rows cols = v ∧
    (mb_zoom_center (mb_zoom_center v f rows cols) (1 / f) rows cols).center_x = v.center_x ∧
    (mb_zoom_center (mb_zoom_center v f rows cols) (1 / f) rows cols).center_y = v.center_y ∧
    (mb_zoom_center (mb_zoom_center v f rows cols) (1 / f) rows cols).scale = v.scale := by
  have hs0 : v.scale ≠ 0 := ne_of_gt hs
  have hc0 : (cols : ℚ) ≠ 0 := by
    have : (0 : ℚ) < (cols : ℚ) := by exact_mod_cast (by omega : 0 < cols)
    exact ne_of_gt this
  have hs1 : (mb_zoom_at v f rows cols (cols.tdiv 2) (rows.tdiv 2)).scale ≠ 0 := by
    rw [mb_zoom_at_scale]
    exact mul_ne_zero hs0 hf
  obtain ⟨hax, hay, hsc⟩ :=
    mb_zoom_at_anchor_fixed v f rows cols (cols.tdiv 2) (rows.tdiv 2) hs hc
  obtain ⟨hx, hy⟩ := mb_zoom_at_center v f rows cols (cols.tdiv 2) (rows.tdiv 2) hs0
  obtain ⟨hx2, hy2⟩ := mb_zoom_at_center
    (mb_zoom_at v f rows cols (cols.tdiv 2) (rows.tdiv 2)) (1 / f) rows cols
    (cols.tdiv 2) (rows.tdiv 2) hs1
  have hX : (mb_zoom_center (mb_zoom_center v f rows cols) (1 / f) rows cols).center_x
      = v.center_x := by
    unfold mb_zoom_center
    rw [hx2, hax, hx]
    field_simp
  have hY : (mb_zoom_center (mb_zoom_center v f rows cols) (1 / f) rows cols).center_y
      = v.center_y := by
    unfold mb_zoom_center
    rw [hy2, hay, hy]
    field_simp
  have hS : (mb_zoom_center (mb_zoom_center v f rows cols) (1 / f) rows cols).scale
      = v.scale := by
    unfold mb_zoom_center
    rw [mb_zoom_at_scale, mb_zoom_at_scale]
    field_simp
  refine ⟨?_, hX, hY, hS⟩
  cases v with
  | mk a b c =>
    cases hres : mb_zoom_center (mb_zoom_center (Pos.mk a b c) f rows cols) (1 / f) rows cols with
    | mk a2 b2 c2 =>
      rw [hres] at hX hY hS
      simp only at hX hY hS
      rw [hX, hY, hS]

/-- C2 on the initial viewport, factor `0.1`, an 81 by 25 grid. -/
theorem zoom_center_round_trip_witness :
    0 < initialPos.scale ∧ (0.1 : ℚ) ≠ 0 ∧ (1 : Int) ≤ 25 ∧ (1 : Int) ≤ 81 ∧
    mb_zoom_center (mb_zoom_center initialPos 0.1 25 81) (1 / 0.1) 25 81 = initialPos :=
  ⟨by norm_num [initialPos], by norm_num, by decide, by decide,
    (zoom_center_round_trip initialPos 0.1 25 81 (by norm_num [initialPos]) (by norm_num)
      (by decide) (by decide)).1⟩

/-- The center after `mb_zoom_center`, for every grid: it moves by the half-cell
offset of an odd dimension, scaled by `1 - fac`. -/
theorem mb_zoom_center_center (v : Pos) (f : ℚ) (rows cols : Int)
    (hs : 0 < v.scale) (hr : 1 ≤ rows) (hc : 1 ≤ cols) :
    (mb_zoom_center v f rows cols).center_x =
        v.center_x - (1 - f) * ((cols % 2 : Int) : ℚ) / 2 * v.scale / (cols : ℚ) ∧
    (mb_zoom_center v f rows cols).center_y =
        v.center_y - (1 - f) * ((rows % 2 : Int) : ℚ) / 2 * v.scale / (cols : ℚ) := by
  obtain ⟨hx, hy⟩ :=
    mb_zoom_at_center v f rows cols (cols.tdiv 2) (rows.tdiv 2) (ne_of_gt hs)
  unfold mb_zoom_center
  rw [hx, hy]
  simp only [render_cx, render_cy, tdiv_two_cast cols hc, tdiv_two_cast rows hr]
  constructor <;> ring

/-- C3 does not hold on an odd grid: with 81 columns the anchor column
`81 / 2 = 40` is not the exact midpoint `40.5`, its complex point is not `center_x`, and
`mb_zoom_center` with factor `0.1` moves `center_x` of the initial viewport. -/
theorem zoom_center_odd_cols_moves_center :
    0 < initialPos.scale ∧ (1 : Int) ≤ 24 ∧ (1 : Int) ≤ 81 ∧
    (((81 : Int).tdiv 2 : Int) : ℚ) ≠ (81 : ℚ) / 2 ∧
    render_cx 81 initialPos ((81 : Int).tdiv 2) ≠ initialPos.center_x ∧
    (mb_zoom_center initialPos 0.1 24 81).center_x ≠ initialPos.center_x := by
  refine ⟨by norm_num [initialPos], by decide, by decide, ?_, ?_, ?_⟩
  · have h : (81 : Int).tdiv 2 = 40 := by decide
    rw [h]
    norm_num
  · have h : (81 : Int).tdiv 2 = 40 := by decide
    rw [h]
    simp only [render_cx, initialPos]
    norm_num
  · have h := (mb_zoom_center_center initialPos 0.1 24 81 (by norm_num [initialPos])
      (by decide) (by decide)).1
    rw [h]
    have h2 : ((81 : Int) % 2 : Int) = 1 := by decide
    rw [h2]
    simp only [initialPos]
    norm_num

/-- C3, with the exact-center part restricted to even dimensions:
`mb_zoom_center` calls `mb_zoom_at` with the anchor cell
`(cols / 2, rows / 2)` of truncating integer division and sets the scale to
`scale * f`. When `cols` is even that column is the exact midpoint, its complex
x-coordinate is `center_x`, and `center_x` is unchanged; when `rows` is even
the same holds for the row, `center_y`. -/
theorem zoom_center_even_grid (v : Pos) (f : ℚ) (rows cols : Int)
    (hs : 0 < v.scale) (hr : 1 ≤ rows) (hc : 1 ≤ cols) :
    mb_zoom_center v f rows cols = mb_zoom_at v f rows cols (cols.tdiv 2) (rows.tdiv 2) ∧
    (mb_zoom_center v f rows cols).scale = v.scale * f ∧
    (cols % 2 = 0 →
      ((cols.tdiv 2 : Int) : ℚ) = (cols : ℚ) / 2 ∧
      render_cx cols v (cols.tdiv 2) = v.center_x ∧
      (mb_zoom_center v f rows cols).center_x = v.center_x) ∧
    (rows % 2 = 0 →
      ((rows.tdiv 2 : Int) : ℚ) = (rows : ℚ) / 2 ∧
      render_cy rows cols v (rows.tdiv 2) = v.center_y ∧
      (mb_zoom_center v f rows cols).center_y = v.center_y) := by
  obtain ⟨hx, hy⟩ := mb_zoom_center_center v f rows cols hs hr hc
  refine ⟨rfl, rfl, ?_, ?_⟩
  · intro he
    have hmid : ((cols.tdiv 2 : Int) : ℚ) = (cols : ℚ) / 2 := by
      rw [tdiv_two_cast cols hc, he]
      simp
    refine ⟨hmid, ?_, ?_⟩
    · rw [render_cx, hmid]
      simp
    · rw [hx, he]
      simp
  · intro he
    have hmid : ((rows.tdiv 2 : Int) : ℚ) = (rows : ℚ) / 2 := by
      rw [tdiv_two_cast rows hr, he]
      simp
    refine ⟨hmid, ?_, ?_⟩
    · rw [render_cy, hmid]
      simp
    · rw [hy, he]
      simp

/-- C3 for even dimensions, on the initial viewport, factor `0.1`, an 80 by 24
grid. -/
theorem zoom_center_even_grid_witness :
    0 < initialPos.scale ∧ (1 : Int) ≤ 24 ∧ (1 : Int) ≤ 80 ∧
    (80 : Int) % 2 = 0 ∧ (24 : Int) % 2 = 0 ∧
    (mb_zoom_center initialPos 0.1 24 80).scale = initialPos.scale * 0.1 ∧
    (mb_zoom_center initialPos 0.1 24 80).center_x = initialPos.center_x ∧
    (mb_zoom_center initialPos 0.1 24 80).center_y = initialPos.center_y :=
  have h := zoom_center_even_grid initialPos 0.1 24 80 (by norm_num [initialPos])
    (by decide) (by decide)
  ⟨by norm_num [initialPos], by decide, by decide, by decide, by decide,
    h.2.1, (h.2.2.1 (by decide)).2.2, (h.2.2.2 (by decide)).2.2⟩

/-! ## The key switch -/

/-- The keys other than `x` keep a positive scale positive. -/
theorem keyStep_scale_pos (row col : Int) (pos : Pos) (ch : Key)
    (hch : ch ≠ Key.x) (hs : 0 < pos.scale) :
    0 < (keyStep row col pos ch).scale := by
  cases ch with
  | x => exact absurd rfl hch
  | z =>
    show 0 < pos.scale * 0.1
    exact mul_pos hs (by norm_num)
  | up => exact hs
  | down => exact hs
  | left => exact hs
  | right => exact hs
  | other => exact hs

/-- The key `x` calls `mb_zoom_center` with factor `-1.0/0.1 = -10`: the scale
is multiplied by `-10`. -/
theorem keyStep_x_scale (row col : Int) (pos : Pos) :
    keyStep row col pos Key.x = mb_zoom_center pos (-10) row col ∧
    (keyStep row col pos Key.x).scale = pos.scale * (-10) := by
  have h : (-1.0 / 0.1 : ℚ) = -10 := by norm_num
  constructor
  · show mb_zoom_center pos (-1.0 / 0.1) row col = _
    rw [h]
  · show pos.scale * (-1.0 / 0.1) = _
    rw [h]

/-- C4 is broken by the zoom-out key: from the initial viewport on an 80 by
24 terminal, one press of the zoom-out key `x` leaves `scale = -30`, which is
not positive; the step is `mb_zoom_center` with factor `-10`, not `10`. -/
theorem zoom_out_key_negative_scale :
    (runKeys 24 80 initialPos [Key.x]).scale = -30 ∧
    ¬ 0 < (runKeys 24 80 initialPos [Key.x]).scale ∧
    runKeys 24 80 initialPos [Key.x] = mb_zoom_center initialPos (-10) 24 80 ∧
    runKeys 24 80 initialPos [Key.x] ≠ mb_zoom_center initialPos 10.0 24 80 := by
  have hrun : runKeys 24 80 initialPos [Key.x] = keyStep 24 80 initialPos Key.x := rfl
  have hsc : (runKeys 24 80 initialPos [Key.x]).scale = -30 := by
    rw [hrun, (keyStep_x_scale 24 80 initialPos).2]
    simp only [initialPos]
    norm_num
  refine ⟨hsc, ?_, ?_, ?_⟩
  · rw [hsc]
    norm_num
  · rw [hrun]
    exact (keyStep_x_scale 24 80 initialPos).1
  · intro h
    have h2 : (mb_zoom_center initialPos 10.0 24 80).scale = 30 := by
      show initialPos.scale * 10.0 = 30
      simp only [initialPos]
      norm_num
    rw [h, h2] at hsc
    norm_num at hsc

/-! ## Rendering -/

theorem rowMajorCells_succ (rows cols : Int) (pos : Pos) (n : Nat) :
    rowMajorCells rows cols pos (n + 1) =
      rowMajorCells rows cols pos n ++
        [renderCell rows cols pos ((n : Int) / cols) ((n : Int) % cols)] := by
  simp [rowMajorCells, List.range_succ]

theorem colLoop_unfold (rows cols : Int) (pos : Pos) (row col : Int) (out : List Emit) :
    colLoop rows cols pos row col out =
      if col < cols then
        colLoop rows cols pos row (col + 1) (out ++ [renderCell rows cols pos row col])
      else out := by
  rw [colLoop]

theorem rowLoop_unfold (rows cols : Int) (pos : Pos) (row : Int) (out : List Emit) :
    rowLoop rows cols pos row out =
      if row < rows then
        rowLoop rows cols pos (row + 1) (colLoop rows cols pos row 0 out)
      else out := by
  rw [rowLoop]

/-- The inner loop extends the cells before `(row, col)` to the cells up to the
end of the row. -/
theorem colLoop_rowMajor (rows cols : Int) (pos : Pos) (row : Int) (hrow : 0 ≤ row)
    (n : Nat) (col : Int) (hn : (cols - col).toNat = n) (hcol : 0 ≤ col) (hle : col ≤ cols) :
    colLoop rows cols pos row col (rowMajorCells rows cols pos (row * cols + col).toNat) =
      rowMajorCells rows cols pos (row * cols + cols).toNat := by
  induction n generalizing col with
  | zero =>
    have hc : col = cols := by omega
    rw [colLoop_unfold, if_neg (by omega), hc]
  | succ n ih =>
    have hlt : col < cols := by omega
    have hprod : 0 ≤ row * cols := mul_nonneg hrow (by omega)
    have hnn : 0 ≤ row * cols + col := by omega
    have hsucc : (row * cols + (col + 1)).toNat = (row * cols + col).toNat + 1 := by omega
    have hcast : (((row * cols + col).toNat : Nat) : Int) = col + row * cols := by
      rw [Int.toNat_of_nonneg hnn]
      ring
    have hdiv : (col + row * cols) / cols = row := by
      rw [Int.add_mul_ediv_right _ _ (by omega), Int.ediv_eq_zero_of_lt hcol hlt]
      simp
    have hmod : (col + row * cols) % cols = col := by
      rw [Int.add_mul_emod_self, Int.emod_eq_of_lt hcol hlt]
    rw [colLoop_unfold, if_pos hlt]
    have hout : rowMajorCells rows cols pos (row * cols + col).toNat ++
        [renderCell rows cols pos row col] =
        rowMajorCells rows cols pos (row * cols + (col + 1)).toNat := by
      rw [hsucc, rowMajorCells_succ, hcast, hdiv, hmod]
    rw [hout]
    exact ih (col + 1) (by omega) (by omega) (by omega)

/-- The outer loop extends the cells of the rows before `row` to all cells. -/
theorem rowLoop_rowMajor (rows cols : Int) (pos : Pos) (hcols : 0 ≤ cols)
    (n : Nat) (row : Int) (hn : (rows - row).toNat = n) (hrow : 0 ≤ row) (hle : row ≤ rows) :
    rowLoop rows cols pos row (rowMajorCells rows cols pos (row * cols).toNat) =
      rowMajorCells rows cols pos (rows * cols).toNat := by
  induction n generalizing row with
  | zero =>
    have hr : row = rows := by omega
    rw [rowLoop_unfold, if_neg (by omega), hr]
  | succ n ih =>
    have hlt : row < rows := by omega
    rw [rowLoop_unfold, if_pos hlt]
    have hcol := colLoop_rowMajor rows cols pos row hrow (cols - 0).toNat 0 rfl
      (le_refl 0) hcols
    rw [add_zero] at hcol
    rw [hcol]
    have hnext : row * cols + cols = (row + 1) * cols := by ring
    rw [hnext]
    exact ih (row + 1) (by omega) (by omega) (by omega)

/-- The emissions of `mb_render` are the row-major reference list. -/
theorem mb_render_eq_rowMajor (rows cols : Int) (pos : Pos) (hr : 0 ≤ rows) (hc : 0 ≤ cols) :
    (mb_render rows cols pos).1 = rowMajorCells rows cols pos (rows * cols).toNat := by
  have h := rowLoop_rowMajor rows cols pos hc (rows - 0).toNat 0 rfl (le_refl 0) hr
  simpa [mb_render, rowMajorCells] using h

/-- C8: `mb_render` emits exactly once per cell in row-major order. For a grid
with `rows >= 0` and `cols >= 0` there are exactly `rows * cols` emissions; the
`k`-th is for the cell of row `k / cols` and column `k mod cols`, a cell of the
grid, and carries the shade and color of the `mandelbrot` count of that cell's
complex point; the cell `(r, c)` is emitted at position `r * cols + c`; and the
viewport is returned as it was. -/
theorem mb_render_row_major (rows cols : Int) (pos : Pos) (hr : 0 ≤ rows) (hc : 0 ≤ cols) :
    (mb_render rows cols pos).1.length = (rows * cols).toNat ∧
    (∀ k : Nat, k < (rows * cols).toNat →
      (0 ≤ (k : Int) / cols ∧ (k : Int) / cols < rows) ∧
      (0 ≤ (k : Int) % cols ∧ (k : Int) % cols < cols) ∧
      (mb_render rows cols pos).1.get? k = some
        { row := (k : Int) / cols
          col := (k : Int) % cols
          shade := shadeIndex (mandelbrot
            (pos.center_x + ((((k : Int) % cols : Int) : ℚ) - (cols : ℚ) / 2) * pos.scale / (cols : ℚ))
            (pos.center_y + ((((k : Int) / cols : Int) : ℚ) - (rows : ℚ) / 2) * pos.scale / (cols : ℚ)))
          glyph := shadeGlyph (shadeIndex (mandelbrot
            (pos.center_x + ((((k : Int) % cols : Int) : ℚ) - (cols : ℚ) / 2) * pos.scale / (cols : ℚ))
            (pos.center_y + ((((k : Int) / cols : Int) : ℚ) - (rows : ℚ) / 2) * pos.scale / (cols : ℚ))))
          color := colorIndex (mandelbrot
            (pos.center_x + ((((k : Int) % cols : Int) : ℚ) - (cols : ℚ) / 2) * pos.scale / (cols : ℚ))
            (pos.center_y + ((((k : Int) / cols : Int) : ℚ) - (rows : ℚ) / 2) * pos.scale / (cols : ℚ))) }) ∧
    (∀ r c : Int, 0 ≤ r → r < rows → 0 ≤ c → c < cols →
      (r * cols + c).toNat < (rows * cols).toNat ∧
      ((mb_render rows cols pos).1.get? (r * cols + c).toNat).map (fun e => (e.row, e.col))
        = some (r, c)) ∧
    (mb_render rows cols pos).2 = pos := by
  have hlist := mb_render_eq_rowMajor rows cols pos hr hc
  have hget : ∀ k : Nat, k < (rows * cols).toNat →
      (mb_render rows cols pos).1.get? k =
        some (renderCell rows cols pos ((k : Int) / cols) ((k : Int) % cols)) := by
    intro k hk
    rw [hlist, rowMajorCells, List.get?_eq_getElem?, List.getElem?_map,
      List.getElem?_range hk]
    rfl
  have hprod : 0 ≤ rows * cols := mul_nonneg hr hc
  refine ⟨?_, ?_, ?_, rfl⟩
  · rw [hlist, rowMajorCells, List.length_map, List.length_range]
  · intro k hk
    have hk2 : (k : Int) < rows * cols := by omega
    have hcpos : 0 < cols := by
      rcases lt_or_eq_of_le hc with h | h
      · exact h
      · rw [← h] at hk2
        simp at hk2
        omega
    refine ⟨⟨Int.ediv_nonneg (by omega) hc, ?_⟩,
      ⟨Int.emod_nonneg _ (by omega), Int.emod_lt_of_pos _ hcpos⟩, ?_⟩
    · apply Int.ediv_lt_of_lt_mul hcpos
      exact hk2
    · rw [hget k hk]
      rfl
  · intro r c hr0 hr1 hc0 hc1
    have hrc : 0 ≤ r * cols := mul_nonneg hr0 hc
    have hnn : 0 ≤ r * cols + c := by omega
    have hlt : r * cols + c < rows * cols := by
      have h1 : (r + 1) * cols ≤ rows * cols :=
        mul_le_mul_of_nonneg_right (by omega) hc
      have h2 : (r + 1) * cols = r * cols + cols := by ring
      omega
    have hidx : (r * cols + c).toNat < (rows * cols).toNat := by omega
    refine ⟨hidx, ?_⟩
    rw [hget _ hidx, Int.toNat_of_nonneg hnn]
    have hdiv : (r * cols + c) / cols = r := by
      rw [add_comm, Int.add_mul_ediv_right _ _ (by omega), Int.ediv_eq_zero_of_lt hc0 hc1]
      simp
    have hmod : (r * cols + c) % cols = c := by
      rw [add_comm, Int.add_mul_emod_self, Int.emod_eq_of_lt hc0 hc1]
    simp [renderCell, hdiv, hmod]

/-- C8 on a 2 by 3 grid with the initial viewport: six emissions. -/
theorem mb_render_row_major_witness :
    (0 : Int) ≤ 2 ∧ (0 : Int) ≤ 3 ∧
    (mb_render 2 3 initialPos).1.length = ((2 : Int) * 3).toNat ∧
    ((2 : Int) * 3).toNat = 6 ∧
    (mb_render 2 3 initialPos).2 = initialPos :=
  have h := mb_render_row_major 2 3 initialPos (by decide) (by decide)
  ⟨by decide, by decide, h.1, by decide, h.2.2.2⟩

end Mandelbrot
